import Mathlib

/-!
Verification of the REINVENT 2.0 reinforcement-learning control-loop contract
configured by the ReinventCommunity notebooks.

The notebooks build nested configuration dictionaries (diversity filter,
inception memory, reinforcement-learning parameters, scoring function),
serialize them with `json.dump(..., indent=4, sort_keys=True)` and hand the
file to the external REINVENT program.  The control loop itself (diversity
filter, scoring aggregation, inception memory, policy update) is not part of
the repository sources, so those operations are modelled here from the
specification's description of the contract; the JSON serialization step is
modelled from the notebook code that performs it.
-/

namespace ReinventSpec

/-- A generated candidate sequence (a SMILES string). -/
abbrev Candidate := String

/-! ### Diversity filter -/

/-- Modelled from the spec: the `parameters.diversity_filter` configuration
block built by the notebook (`nbmax`, `minscore`); the filter implementation
lives in the external REINVENT program, not in the repository sources. -/
structure DFConfig where
  nbmax : Nat
  minscore : ℚ
deriving DecidableEq

/-- Modelled from the spec: a scaffold bucket — keyed by a structural
equivalence key, holding an occupancy count and the recorded member list
that is exported as the scaffold memory at the end of the run. -/
structure Bucket where
  key : String
  count : Nat
  members : List (Candidate × ℚ)
deriving DecidableEq

/-- Modelled from the spec: first-fit search for the candidate's bucket.
If a bucket with the candidate's scaffold key exists, its count is
incremented; the candidate receives its raw score (and is recorded in the
bucket's member list) while the new count is at most `nbmax`, and receives
score `0` once the count exceeds `nbmax`.  Returns `none` when no bucket
matches. -/
def adjustBuckets (nbmax : Nat) (k : String) (c : Candidate) (raw : ℚ) :
    List Bucket → Option (ℚ × List Bucket)
  | [] => none
  | b :: rest =>
      if b.key = k then
        let nc := b.count + 1
        if nc ≤ nbmax then
          some (raw, { b with count := nc, members := b.members ++ [(c, raw)] } :: rest)
        else
          some (0, { b with count := nc } :: rest)
      else
        match adjustBuckets nbmax k c raw rest with
        | some (s, rest') => some (s, b :: rest')
        | none => none

/-- Modelled from the spec: the diversity filter's `adjust` operation
(spec §4.3 steps 1–4), absent from the repository sources.  Candidates below
`minscore` pass through unmodified with no memory update; eligible candidates
are assigned to the first matching bucket (or a fresh bucket), the bucket
count is incremented, and the score is zeroed once the count exceeds
`nbmax`. -/
def adjust (cfg : DFConfig) (key : Candidate → String) (st : List Bucket)
    (c : Candidate) (raw : ℚ) : ℚ × List Bucket :=
  if raw < cfg.minscore then (raw, st)
  else
    match adjustBuckets cfg.nbmax (key c) c raw st with
    | some res => res
    | none =>
        if 1 ≤ cfg.nbmax then
          (raw, st ++ [⟨key c, 1, [(c, raw)]⟩])
        else
          (0, st ++ [⟨key c, 1, []⟩])

/-- Modelled from the spec: process a sequence of (candidate, raw score)
pairs through the diversity filter, threading the bucket state and
collecting the adjusted scores in order. -/
def runAdjust (cfg : DFConfig) (key : Candidate → String) (st : List Bucket) :
    List (Candidate × ℚ) → List ℚ × List Bucket
  | [] => ([], st)
  | p :: rest =>
      let r1 := adjust cfg key st p.1 p.2
      let r2 := runAdjust cfg key r1.2 rest
      (r1.1 :: r2.1, r2.2)

/-- Modelled from the spec: the closed set of diversity-filter variants
selectable by the notebook's `name` field. -/
inductive FilterKind where
  | IdenticalMurckoScaffold
  | IdenticalTopologicalScaffold
  | ScaffoldSimilarity
  | NoFilter
deriving DecidableEq

/-- Modelled from the spec: dispatch on the configured diversity-filter
variant; `NoFilter` disables bucketing entirely and is the identity on
scores and state (spec §4.3 step 5). -/
def adjustWith (k : FilterKind) (cfg : DFConfig) (key : Candidate → String)
    (st : List Bucket) (c : Candidate) (raw : ℚ) : ℚ × List Bucket :=
  match k with
  | .NoFilter => (raw, st)
  | _ => adjust cfg key st c raw

/-! Behaviour of `runAdjust` on a state holding a single bucket, with every
incoming candidate eligible and mapped to that bucket's key. -/

theorem runAdjust_single (cfg : DFConfig) (key : Candidate → String) (k : String)
    (cs : List (Candidate × ℚ)) :
    ∀ (j : Nat) (ms : List (Candidate × ℚ)),
    (∀ p ∈ cs, key p.1 = k) → (∀ p ∈ cs, cfg.minscore ≤ p.2) →
    (runAdjust cfg key [⟨k, j, ms⟩] cs).1.length = cs.length ∧
    (∀ i (hi : i < cs.length) (hi' : i < (runAdjust cfg key [⟨k, j, ms⟩] cs).1.length),
       (runAdjust cfg key [⟨k, j, ms⟩] cs).1.get ⟨i, hi'⟩ =
         if j + i < cfg.nbmax then (cs.get ⟨i, hi⟩).2 else 0) ∧
    (runAdjust cfg key [⟨k, j, ms⟩] cs).2 =
      [⟨k, j + cs.length, ms ++ cs.take (cfg.nbmax - j)⟩] := by
  induction cs with
  | nil =>
      intro j ms _ _
      refine ⟨rfl, ?_, by simp [runAdjust]⟩
      intro i hi
      exact absurd hi (by simp)
  | cons p rest ih =>
      intro j ms hkey helig
      have hpk : key p.1 = k := hkey p (by simp)
      have hpe : cfg.minscore ≤ p.2 := helig p (by simp)
      have hstep : adjust cfg key [⟨k, j, ms⟩] p.1 p.2 =
          if j + 1 ≤ cfg.nbmax then
            (p.2, [⟨k, j + 1, ms ++ [p]⟩])
          else
            (0, [⟨k, j + 1, ms⟩]) := by
        rw [adjust, if_neg (not_lt.mpr hpe)]
        simp only [adjustBuckets, hpk, if_pos rfl]
        by_cases h : j + 1 ≤ cfg.nbmax
        · simp [h]
        · simp [h]
      by_cases h : j + 1 ≤ cfg.nbmax
      · have hs : adjust cfg key [⟨k, j, ms⟩] p.1 p.2 = (p.2, [⟨k, j + 1, ms ++ [p]⟩]) := by
          rw [hstep, if_pos h]
        obtain ⟨ih1, ih2, ih3⟩ := ih (j + 1) (ms ++ [p])
          (fun q hq => hkey q (by simp [hq])) (fun q hq => helig q (by simp [hq]))
        have hrun : runAdjust cfg key [⟨k, j, ms⟩] (p :: rest) =
            (p.2 :: (runAdjust cfg key [⟨k, j + 1, ms ++ [p]⟩] rest).1,
             (runAdjust cfg key [⟨k, j + 1, ms ++ [p]⟩] rest).2) := by
          rw [runAdjust, hs]
        rw [hrun]
        refine ⟨by simpa using ih1, ?_, ?_⟩
        · intro i hi hi'
          match i with
          | 0 => simp [Nat.lt_of_lt_of_le (Nat.lt_succ_self j) h |>.trans_le (le_refl _),
                       show j + 0 < cfg.nbmax by omega]
          | Nat.succ i =>
              have hi2 : i < rest.length := by simpa using hi
              have hi2' : i < (runAdjust cfg key [⟨k, j + 1, ms ++ [p]⟩] rest).1.length := by
                rw [ih1]; exact hi2
              have := ih2 i hi2 hi2'
              simp only [List.get_cons_succ]
              rw [this]
              have harith : j + 1 + i = j + (i + 1) := by omega
              rw [harith]
        · rw [ih3]
          have h1 : cfg.nbmax - j = (cfg.nbmax - (j + 1)) + 1 := by omega
          simp [h1, List.take_succ_cons]
          omega
      · have hs : adjust cfg key [⟨k, j, ms⟩] p.1 p.2 = (0, [⟨k, j + 1, ms⟩]) := by
          rw [hstep, if_neg h]
        obtain ⟨ih1, ih2, ih3⟩ := ih (j + 1) ms
          (fun q hq => hkey q (by simp [hq])) (fun q hq => helig q (by simp [hq]))
        have hrun : runAdjust cfg key [⟨k, j, ms⟩] (p :: rest) =
            ((0 : ℚ) :: (runAdjust cfg key [⟨k, j + 1, ms⟩] rest).1,
             (runAdjust cfg key [⟨k, j + 1, ms⟩] rest).2) := by
          rw [runAdjust, hs]
        rw [hrun]
        refine ⟨by simpa using ih1, ?_, ?_⟩
        · intro i hi hi'
          match i with
          | 0 =>
              rw [if_neg (show ¬ j + 0 < cfg.nbmax by omega)]
              rfl
          | Nat.succ i =>
              have hi2 : i < rest.length := by simpa using hi
              have hi2' : i < (runAdjust cfg key [⟨k, j + 1, ms⟩] rest).1.length := by
                rw [ih1]; exact hi2
              have := ih2 i hi2 hi2'
              simp only [List.get_cons_succ]
              rw [this]
              have harith : j + 1 + i = j + (i + 1) := by omega
              rw [harith]
        · rw [ih3]
          have h1 : cfg.nbmax - j = 0 := by omega
          have h2 : cfg.nbmax - (j + 1) = 0 := by omega
          simp [h1, h2]
          omega

/-- C1: for a diversity-filter run configured with `nbmax = N`, a sequence of
eligible candidates (raw score at least `minscore`) all assigned to the same
scaffold bucket receives its raw scores unchanged for the first `N`
candidates — each of which is recorded in the bucket's member list — and
adjusted score `0` for the `(N+1)`-th and every later candidate of that
bucket. -/
theorem diversity_filter_nbmax (cfg : DFConfig) (key : Candidate → String) (k : String)
    (cs : List (Candidate × ℚ))
    (hkey : ∀ p ∈ cs, key p.1 = k)
    (helig : ∀ p ∈ cs, cfg.minscore ≤ p.2) :
    (runAdjust cfg key [] cs).1.length = cs.length ∧
    (∀ i (hi : i < cs.length) (hi' : i < (runAdjust cfg key [] cs).1.length),
       (runAdjust cfg key [] cs).1.get ⟨i, hi'⟩ =
         if i < cfg.nbmax then (cs.get ⟨i, hi⟩).2 else 0) ∧
    ((runAdjust cfg key [] cs).2 =
       if cs = [] then [] else [⟨k, cs.length, cs.take cfg.nbmax⟩]) := by
  match cs, hkey, helig with
  | [], _, _ =>
      refine ⟨rfl, ?_, by simp [runAdjust]⟩
      intro i hi
      exact absurd hi (by simp)
  | p :: rest, hkey, helig =>
      have hpk : key p.1 = k := hkey p (by simp)
      have hpe : cfg.minscore ≤ p.2 := helig p (by simp)
      by_cases h : 1 ≤ cfg.nbmax
      · have hs : adjust cfg key [] p.1 p.2 = (p.2, [⟨k, 1, [p]⟩]) := by
          rw [adjust, if_neg (not_lt.mpr hpe)]
          simp only [adjustBuckets, hpk, if_pos h]
          simp
        obtain ⟨ih1, ih2, ih3⟩ := runAdjust_single cfg key k rest 1 [p]
          (fun q hq => hkey q (by simp [hq])) (fun q hq => helig q (by simp [hq]))
        have hrun : runAdjust cfg key [] (p :: rest) =
            (p.2 :: (runAdjust cfg key [⟨k, 1, [p]⟩] rest).1,
             (runAdjust cfg key [⟨k, 1, [p]⟩] rest).2) := by
          rw [runAdjust, hs]
        rw [hrun]
        refine ⟨by simpa using ih1, ?_, ?_⟩
        · intro i hi hi'
          match i with
          | 0 =>
              rw [if_pos (show (0 : Nat) < cfg.nbmax by omega)]
              rfl
          | Nat.succ i =>
              have hi2 : i < rest.length := by simpa using hi
              have hi2' : i < (runAdjust cfg key [⟨k, 1, [p]⟩] rest).1.length := by
                rw [ih1]; exact hi2
              have := ih2 i hi2 hi2'
              simp only [List.get_cons_succ]
              rw [this]
              have harith : 1 + i = i + 1 := by omega
              rw [harith]
        · rw [ih3]
          have h1 : cfg.nbmax = (cfg.nbmax - 1) + 1 := by omega
          rw [if_neg (by simp)]
          simp only [List.length_cons, Nat.add_comm 1]
          rw [show (p :: rest).take cfg.nbmax = p :: rest.take (cfg.nbmax - 1) by
            rw [h1]; simp [List.take_succ_cons]]
          simp
      · have hz : cfg.nbmax = 0 := by omega
        have hs : adjust cfg key [] p.1 p.2 = (0, [⟨k, 1, []⟩]) := by
          rw [adjust, if_neg (not_lt.mpr hpe)]
          simp only [adjustBuckets, hpk, if_neg h]
          simp
        obtain ⟨ih1, ih2, ih3⟩ := runAdjust_single cfg key k rest 1 []
          (fun q hq => hkey q (by simp [hq])) (fun q hq => helig q (by simp [hq]))
        have hrun : runAdjust cfg key [] (p :: rest) =
            ((0 : ℚ) :: (runAdjust cfg key [⟨k, 1, []⟩] rest).1,
             (runAdjust cfg key [⟨k, 1, []⟩] rest).2) := by
          rw [runAdjust, hs]
        rw [hrun]
        refine ⟨by simpa using ih1, ?_, ?_⟩
        · intro i hi hi'
          match i with
          | 0 =>
              rw [if_neg (show ¬ (0 : Nat) < cfg.nbmax by omega)]
              rfl
          | Nat.succ i =>
              have hi2 : i < rest.length := by simpa using hi
              have hi2' : i < (runAdjust cfg key [⟨k, 1, []⟩] rest).1.length := by
                rw [ih1]; exact hi2
              have := ih2 i hi2 hi2'
              simp only [List.get_cons_succ]
              rw [this]
              rw [if_neg (by omega), if_neg (by omega)]
        · rw [ih3]
          rw [if_neg (by simp)]
          simp [hz, Nat.add_comm 1]

/-- Witness for C1: with `nbmax = 2` and `minscore = 0`, three eligible
candidates in one bucket receive scores 1, 2 and 0, and the bucket records
exactly the first two. -/
theorem diversity_filter_nbmax_witness :
    (runAdjust ⟨2, 0⟩ (fun _ => "s") [] [("a", 1), ("b", 2), ("c", 3)]).1.length = 3 ∧
    (runAdjust ⟨2, 0⟩ (fun _ => "s") [] [("a", 1), ("b", 2), ("c", 3)]).2 =
      [⟨"s", 3, [("a", 1), ("b", 2)]⟩] := by
  have h := diversity_filter_nbmax ⟨2, 0⟩ (fun _ => "s") "s"
    [("a", 1), ("b", 2), ("c", 3)]
    (by intro p _; rfl)
    (by intro p hp; fin_cases hp <;> norm_num)
  refine ⟨h.1, ?_⟩
  rw [h.2.2]
  simp

/-- C5: the `NoFilter` diversity-filter variant is the identity on scores
and creates or modifies no bucket state. -/
theorem nofilter_identity (cfg : DFConfig) (key : Candidate → String)
    (st : List Bucket) (c : Candidate) (raw : ℚ) :
    adjustWith .NoFilter cfg key st c raw = (raw, st) := rfl

/-! ### Inception memory -/

/-- An inception-memory entry: a candidate together with its recorded score. -/
abbrev MemEntry := Candidate × ℚ

/-- Modelled from the spec: the lowest score currently held in the inception
memory (`0` for an empty memory). -/
def minScore : List MemEntry → ℚ
  | [] => 0
  | [e] => e.2
  | e :: rest => min e.2 (minScore rest)

/-- Modelled from the spec: capacity enforcement of the inception memory —
remove the single entry with the lowest score, breaking ties among
equal-lowest scores by removing the oldest-inserted (earliest) one. -/
def evictLowest : List MemEntry → List MemEntry
  | [] => []
  | [_] => []
  | e :: rest => if e.2 ≤ minScore rest then rest else e :: evictLowest rest

/-- Modelled from the spec: the inception memory's `add` operation (spec
§4.4), absent from the repository sources.  A new entry is appended when the
buffer is not full; when full, it is inserted only if its score exceeds the
current lowest, in which case the lowest-scoring (oldest-first among ties)
entry is evicted. -/
def addMem (cap : Nat) (st : List MemEntry) (c : Candidate) (s : ℚ) : List MemEntry :=
  if st.length < cap then st ++ [(c, s)]
  else if minScore st < s then evictLowest st ++ [(c, s)]
  else st

theorem minScore_le : ∀ (l : List MemEntry), ∀ e ∈ l, minScore l ≤ e.2
  | [], e, he => absurd he (by simp)
  | [x], e, he => by
      simp only [List.mem_singleton] at he
      subst he; exact le_refl _
  | x :: y :: rest, e, he => by
      rw [show minScore (x :: y :: rest) = min x.2 (minScore (y :: rest)) from rfl]
      rcases (by simpa using he : e = x ∨ e ∈ y :: rest) with h | h
      · subst h; exact min_le_left _ _
      · exact le_trans (min_le_right _ _) (minScore_le (y :: rest) e h)

theorem le_minScore (c : ℚ) : ∀ (l : List MemEntry), l ≠ [] →
    (∀ e ∈ l, c ≤ e.2) → c ≤ minScore l
  | [], h, _ => absurd rfl h
  | [x], _, hb => by
      simpa [minScore] using hb x (by simp)
  | x :: y :: rest, _, hb => by
      rw [show minScore (x :: y :: rest) = min x.2 (minScore (y :: rest)) from rfl]
      exact le_min (hb x (by simp))
        (le_minScore c (y :: rest) (by simp) (fun e he => hb e (by simp [he])))

theorem minScore_mem : ∀ (l : List MemEntry), l ≠ [] → ∃ e ∈ l, minScore l = e.2
  | [], h => absurd rfl h
  | [x], _ => ⟨x, by simp, rfl⟩
  | x :: y :: rest, _ => by
      rw [show minScore (x :: y :: rest) = min x.2 (minScore (y :: rest)) from rfl]
      rcases le_total x.2 (minScore (y :: rest)) with h | h
      · exact ⟨x, by simp, min_eq_left h⟩
      · obtain ⟨e, he, hmin⟩ := minScore_mem (y :: rest) (by simp)
        exact ⟨e, by simp [he], by rw [min_eq_right h, hmin]⟩

theorem evictLowest_spec : ∀ (l : List MemEntry), l ≠ [] →
    ∃ i, ∃ h : i < l.length,
      evictLowest l = l.eraseIdx i ∧
      (l.get ⟨i, h⟩).2 = minScore l ∧
      ∀ j (hj : j < i), minScore l < (l.get ⟨j, Nat.lt_trans hj h⟩).2
  | [], h => absurd rfl h
  | [x], _ => by
      refine ⟨0, by simp, by simp [evictLowest], by simp [minScore], ?_⟩
      intro j hj
      exact absurd hj (by omega)
  | x :: y :: rest, _ => by
      have hmin : minScore (x :: y :: rest) = min x.2 (minScore (y :: rest)) := rfl
      by_cases h : x.2 ≤ minScore (y :: rest)
      · refine ⟨0, by simp, ?_, ?_, ?_⟩
        · simp [evictLowest, h]
        · simp [hmin, min_eq_left h]
        · intro j hj
          exact absurd hj (by omega)
      · obtain ⟨i, hi, heq, hval, hbefore⟩ := evictLowest_spec (y :: rest) (by simp)
        have hm : minScore (x :: y :: rest) = minScore (y :: rest) := by
          rw [hmin, min_eq_right (le_of_lt (not_le.mp h))]
        refine ⟨i + 1, by simpa using Nat.succ_lt_succ hi, ?_, ?_, ?_⟩
        · simp only [evictLowest, if_neg h, List.eraseIdx_cons_succ, List.cons.injEq,
            true_and]
          exact heq
        · simpa [hm] using hval
        · intro j hj
          match j with
          | 0 => simpa [hm] using not_le.mp h
          | Nat.succ j =>
              have hj' : j < i := by omega
              simpa [hm] using hbefore j hj'

theorem addMem_fill (cap : Nat) :
    ∀ (es : List MemEntry) (st : List MemEntry), st.length + es.length ≤ cap →
    List.foldl (fun acc e => addMem cap acc e.1 e.2) st es = st ++ es
  | [], st, _ => by simp
  | e :: rest, st, hle => by
      have hlt : st.length < cap := by
        simp only [List.length_cons] at hle; omega
      have h1 : addMem cap st e.1 e.2 = st ++ [e] := by
        rw [addMem, if_pos hlt]
      rw [List.foldl_cons, h1, addMem_fill cap rest (st ++ [e]) (by simp at hle ⊢; omega)]
      simp

theorem evictLowest_sorted : ∀ (l : List MemEntry), l ≠ [] →
    l.Pairwise (fun a b => a.2 < b.2) → evictLowest l = l.tail
  | [], h, _ => absurd rfl h
  | [x], _, _ => rfl
  | x :: y :: rest, _, hp => by
      have hx : ∀ e ∈ y :: rest, x.2 ≤ e.2 := by
        intro e he
        exact le_of_lt ((List.pairwise_cons.mp hp).1 e he)
      have h : x.2 ≤ minScore (y :: rest) :=
        le_minScore x.2 (y :: rest) (by simp) hx
      simp [evictLowest, h]

/-- C4: the inception memory (i) never exceeds its capacity `memory_size`,
(ii) when an insertion occurs while the memory is full, the evicted entry
has the lowest stored score and every older entry with the same score is
preferred for eviction (oldest-first tie-break — here: every entry before
the evicted index scores strictly above the minimum), and (iii) inserting
`memory_size + 1` candidates with strictly increasing scores into an empty
memory evicts exactly the first-inserted (lowest-scoring) entry and keeps
all the others. -/
theorem inception_memory_eviction :
    (∀ (cap : Nat) (st : List MemEntry) (c : Candidate) (s : ℚ),
       0 < cap → st.length ≤ cap → (addMem cap st c s).length ≤ cap) ∧
    (∀ (cap : Nat) (st : List MemEntry) (c : Candidate) (s : ℚ),
       0 < cap → st.length = cap → minScore st < s →
       ∃ i, ∃ h : i < st.length,
         addMem cap st c s = st.eraseIdx i ++ [(c, s)] ∧
         (∀ e ∈ st, minScore st ≤ e.2) ∧
         (st.get ⟨i, h⟩).2 = minScore st ∧
         ∀ j (hj : j < i), minScore st < (st.get ⟨j, Nat.lt_trans hj h⟩).2) ∧
    (∀ (cap : Nat) (es : List MemEntry),
       0 < cap → es.length = cap + 1 → es.Pairwise (fun a b => a.2 < b.2) →
       List.foldl (fun acc e => addMem cap acc e.1 e.2) [] es = es.drop 1) := by
  refine ⟨?_, ?_, ?_⟩
  · intro cap st c s hcap hlen
    rw [addMem]
    by_cases h1 : st.length < cap
    · rw [if_pos h1]
      simp only [List.length_append, List.length_singleton]
      omega
    · have hfull : st.length = cap := by omega
      have hne : st ≠ [] := by
        intro h; rw [h] at hfull; simp at hfull; omega
      rw [if_neg h1]
      by_cases h2 : minScore st < s
      · rw [if_pos h2]
        obtain ⟨i, hi, heq, _, _⟩ := evictLowest_spec st hne
        rw [heq]
        simp [List.length_eraseIdx, hi]
        omega
      · rw [if_neg h2]; omega
  · intro cap st c s hcap hfull hmin
    have hne : st ≠ [] := by
      intro h; rw [h] at hfull; simp at hfull; omega
    obtain ⟨i, hi, heq, hval, hbefore⟩ := evictLowest_spec st hne
    refine ⟨i, hi, ?_, minScore_le st, hval, hbefore⟩
    rw [addMem, if_neg (by omega), if_pos hmin, heq]
  · intro cap es hcap hlen hsorted
    have hne : es ≠ [] := by
      intro h; rw [h] at hlen; simp at hlen
    obtain ⟨front, lst, hfl⟩ : ∃ front lst, es = front ++ [lst] := by
      refine ⟨es.dropLast, es.getLast hne, ?_⟩
      rw [List.dropLast_append_getLast hne]
    subst hfl
    have hfrontlen : front.length = cap := by
      simp at hlen; omega
    have hfrontne : front ≠ [] := by
      intro h; rw [h] at hfrontlen; simp at hfrontlen; omega
    have hfrontsorted : front.Pairwise (fun a b => a.2 < b.2) :=
      hsorted.sublist (by simp)
    have hcross : ∀ a ∈ front, a.2 < lst.2 := by
      have := List.pairwise_append.mp hsorted
      intro a ha
      exact this.2.2 a ha lst (by simp)
    rw [List.foldl_append, addMem_fill cap front [] (by simpa using le_of_eq hfrontlen)]
    simp only [List.nil_append, List.foldl_cons, List.foldl_nil]
    have hminlt : minScore front < lst.2 := by
      obtain ⟨e, he, hmin⟩ := minScore_mem front hfrontne
      rw [hmin]
      exact hcross e he
    rw [addMem, if_neg (by omega), if_pos hminlt,
      evictLowest_sorted front hfrontne hfrontsorted]
    match front, hfrontne with
    | f :: front', _ => simp

/-- Witness for C4: capacity 2, inserting three entries with increasing
scores keeps the size at 2 and evicts the first entry. -/
theorem inception_memory_eviction_witness :
    (addMem 2 [("a", 1), ("b", 2)] "c" 3).length ≤ 2 ∧
    List.foldl (fun acc e => addMem 2 acc e.1 e.2) []
        [("a", 1), ("b", 2), ("c", 3)] = [("b", 2), ("c", 3)] := by
  constructor
  · exact inception_memory_eviction.1 2 [("a", 1), ("b", 2)] "c" 3
      (by norm_num) (by norm_num)
  · have h := inception_memory_eviction.2.2 2 [("a", 1), ("b", 2), ("c", 3)]
      (by norm_num) (by norm_num) (by norm_num)
    rw [h]
    rfl

/-! ### Sampling from the inception memory -/

/-- Modelled from the spec: drawing entries from the inception memory
uniformly at random without replacement (spec §4.4, `sample_size`).  The
randomness is modelled by a stream `rs` of random draws: for the draw with
`k` remaining requests, the entry at position `rs k mod size` of the
remaining memory is taken and removed.  Every property is proved for every
stream, hence for the random one. -/
def draw (rs : Nat → Nat) : Nat → List MemEntry → List MemEntry
  | 0, _ => []
  | k + 1, xs =>
      if h : xs = [] then []
      else
        xs.get ⟨rs k % xs.length, Nat.mod_lt _ (List.length_pos.mpr h)⟩ ::
          draw rs k (xs.eraseIdx (rs k % xs.length))

/-- Modelled from the spec: `sample(k)` on the inception memory — up to `k`
entries drawn without replacement, fewer when the memory holds fewer. -/
def sampleMem (rs : Nat → Nat) (k : Nat) (st : List MemEntry) : List MemEntry :=
  draw rs k st

theorem get_cons_eraseIdx_perm : ∀ (l : List MemEntry) (i : Nat) (h : i < l.length),
    List.Perm (l.get ⟨i, h⟩ :: l.eraseIdx i) l
  | x :: xs, 0, _ => by simp
  | x :: xs, i + 1, h => by
      have hi : i < xs.length := by simpa using h
      have h1 : (x :: xs).get ⟨i + 1, h⟩ :: (x :: xs).eraseIdx (i + 1)
          = xs.get ⟨i, hi⟩ :: x :: xs.eraseIdx i := by simp
      rw [h1]
      exact (List.Perm.swap x (xs.get ⟨i, hi⟩) _).trans
        ((get_cons_eraseIdx_perm xs i hi).cons x)

theorem draw_length (rs : Nat → Nat) : ∀ (k : Nat) (xs : List MemEntry),
    (draw rs k xs).length = min k xs.length
  | 0, xs => by simp [draw]
  | k + 1, xs => by
      rw [draw]
      by_cases h : xs = []
      · rw [dif_pos h]; subst h; simp
      · rw [dif_neg h]
        have hlt : rs k % xs.length < xs.length :=
          Nat.mod_lt _ (List.length_pos.mpr h)
        simp only [List.length_cons, draw_length rs k,
          List.length_eraseIdx_of_lt hlt]
        omega

theorem draw_subperm (rs : Nat → Nat) : ∀ (k : Nat) (xs : List MemEntry),
    List.Subperm (draw rs k xs) xs
  | 0, xs => by simp [draw]
  | k + 1, xs => by
      rw [draw]
      by_cases h : xs = []
      · rw [dif_pos h]; exact List.nil_subperm
      · rw [dif_neg h]
        have hlt : rs k % xs.length < xs.length :=
          Nat.mod_lt _ (List.length_pos.mpr h)
        have h1 := draw_subperm rs k (xs.eraseIdx (rs k % xs.length))
        have h2 := (List.subperm_cons (xs.get ⟨rs k % xs.length, hlt⟩)).mpr h1
        exact h2.trans (get_cons_eraseIdx_perm xs _ hlt).subperm

theorem draw_perm (rs : Nat → Nat) : ∀ (k : Nat) (xs : List MemEntry),
    xs.length ≤ k → List.Perm (draw rs k xs) xs
  | 0, xs, h => by
      have : xs = [] := List.length_eq_zero.mp (by omega)
      subst this; simp [draw]
  | k + 1, xs, h => by
      by_cases hx : xs = []
      · subst hx; simp [draw]
      · rw [draw, dif_neg hx]
        have hlt : rs k % xs.length < xs.length :=
          Nat.mod_lt _ (List.length_pos.mpr hx)
        have hlen : (xs.eraseIdx (rs k % xs.length)).length ≤ k := by
          rw [List.length_eraseIdx_of_lt hlt]; omega
        exact ((draw_perm rs k _ hlen).cons _).trans
          (get_cons_eraseIdx_perm xs _ hlt)

/-- C6: for every inception-memory state and every requested count `k`,
`sample` returns `min k size` entries, no stored entry appears twice in one
returned sample (the draw is without replacement), and when `k` is at least
the current size every stored entry is returned exactly once (the result is
a permutation of the memory). -/
theorem sample_without_replacement (rs : Nat → Nat) (k : Nat) (st : List MemEntry) :
    (sampleMem rs k st).length = min k st.length ∧
    (st.Nodup → (sampleMem rs k st).Nodup) ∧
    (st.length ≤ k → List.Perm (sampleMem rs k st) st) := by
  refine ⟨draw_length rs k st, ?_, fun h => draw_perm rs k st h⟩
  intro hd
  obtain ⟨l, hperm, hsub⟩ := draw_subperm rs k st
  exact hperm.nodup_iff.mp (hsub.nodup hd)

/-- Witness for C6: a two-entry memory sampled with `k = 5` under the
constant-zero random stream returns both entries exactly once. -/
theorem sample_without_replacement_witness :
    (sampleMem (fun _ => 0) 5 [("a", 1), ("b", 2)]).length = min 5 2 ∧
    (sampleMem (fun _ => 0) 5 [("a", 1), ("b", 2)]).Nodup ∧
    List.Perm (sampleMem (fun _ => 0) 5 [("a", 1), ("b", 2)]) [("a", 1), ("b", 2)] := by
  have h := sample_without_replacement (fun _ => 0) 5 [("a", 1), ("b", 2)]
  exact ⟨h.1, h.2.1 (by decide), h.2.2 (by norm_num)⟩

/-! ### Reinforcement-learning update -/

/-- Modelled from the spec: the `parameters.reinforcement_learning` block
built by the notebook (`sigma`, `n_steps`, `learning_rate`, ...); the policy
update itself is implemented by the external REINVENT program. -/
structure RLParams where
  sigma : ℝ
  nSteps : Nat
  learningRate : ℝ

/-- A candidate as seen by a training step: its agent log-likelihood, prior
log-likelihood and diversity-adjusted reward. -/
structure ScoredCandidate where
  smiles : Candidate
  agentLL : ℝ
  priorLL : ℝ
  reward : ℝ

/-- Modelled from the spec: the augmented-likelihood training target
`prior_log_prob + sigma * reward` (spec §4.5 step 4), computed by the
external REINVENT program. -/
def augmentedLikelihood (sigma priorLL reward : ℝ) : ℝ :=
  priorLL + sigma * reward

/-- Modelled from the spec: the per-candidate loss — squared difference
between the agent log-likelihood and the augmented-likelihood target
(spec §4.5 step 5). -/
def candidateLoss (sigma : ℝ) (c : ScoredCandidate) : ℝ :=
  (c.agentLL - augmentedLikelihood sigma c.priorLL c.reward) ^ 2

/-- Modelled from the spec: the targets a training step computes for a batch. -/
def stepTargets (sigma : ℝ) (batch : List ScoredCandidate) : List ℝ :=
  batch.map (fun c => augmentedLikelihood sigma c.priorLL c.reward)

/-- Modelled from the spec: the per-candidate losses a training step computes. -/
def stepLosses (sigma : ℝ) (batch : List ScoredCandidate) : List ℝ :=
  batch.map (candidateLoss sigma)

/-- C3: with `sigma` the fixed positive scalar configured once per run, every
candidate of a training step receives the target
`prior_log_prob + sigma * reward`, and its loss is the square of the
difference between the agent log-probability and that target. -/
theorem augmented_likelihood_loss (p : RLParams) (hsigma : 0 < p.sigma)
    (batch : List ScoredCandidate) (i : Nat) (hi : i < batch.length) :
    ∃ c, batch[i]? = some c ∧
      (stepTargets p.sigma batch)[i]? = some (c.priorLL + p.sigma * c.reward) ∧
      (stepLosses p.sigma batch)[i]? =
        some ((c.agentLL - (c.priorLL + p.sigma * c.reward)) ^ 2) := by
  refine ⟨batch[i], by simp [List.getElem?_eq_getElem hi], ?_, ?_⟩
  · simp [stepTargets, List.getElem?_eq_getElem hi, augmentedLikelihood]
  · simp [stepLosses, List.getElem?_eq_getElem hi, candidateLoss, augmentedLikelihood]

/-- Witness for C3 at `sigma = 128` and a singleton batch. -/
theorem augmented_likelihood_loss_witness :
    ∃ c, [(⟨"c1", -25, -26, 1/2⟩ : ScoredCandidate)][0]? = some c ∧
      (stepTargets (128 : ℝ) [⟨"c1", -25, -26, 1/2⟩])[0]? =
        some (c.priorLL + 128 * c.reward) ∧
      (stepLosses (128 : ℝ) [⟨"c1", -25, -26, 1/2⟩])[0]? =
        some ((c.agentLL - (c.priorLL + 128 * c.reward)) ^ 2) :=
  augmented_likelihood_loss ⟨128, 1000, 1/10000⟩ (by norm_num)
    [⟨"c1", -25, -26, 1/2⟩] 0 (by norm_num)

/-! ### Training loop termination with zero steps -/

/-- Modelled from the spec: the mutable run state of the training loop —
the agent checkpoint (weights), diversity-filter bucket state and inception
memory; the loop itself is implemented by the external REINVENT program. -/
structure RunState where
  agent : List ℝ
  buckets : List Bucket
  memory : List MemEntry

/-- Modelled from the spec: the training loop (spec §4.5) iterates a step
transformation (sampling, scoring, policy-gradient update) `n_steps` times
and then terminates. -/
def runLoop (step : RunState → RunState) : Nat → RunState → RunState
  | 0, st => st
  | n + 1, st => runLoop step n (step st)

/-- Modelled from the spec: the agent checkpoint persisted at termination. -/
def persistedAgent (step : RunState → RunState) (nsteps : Nat) (st : RunState) :
    List ℝ :=
  (runLoop step nsteps st).agent

/-- C9: running the training loop with `n_steps = 0` applies the step
transformation (hence the policy-gradient update) zero times: the final run
state is the initial one, and the persisted agent checkpoint equals the
input agent checkpoint, whatever the per-step update does. -/
theorem zero_steps_agent_unchanged (step : RunState → RunState) (st : RunState) :
    runLoop step 0 st = st ∧ persistedAgent step 0 st = st.agent :=
  ⟨rfl, rfl⟩

/-! ### Scoring-component value transforms -/

/-- Modelled from the spec: the sigmoid-like squashing transform with
configurable inflection `x0` and steepness `k` applied to a predictive
component's raw output (cf. the `sigmoid` transformation configured in the
notebook); implemented in the external REINVENT program. -/
noncomputable def sigmoidTransform (k x0 x : ℝ) : ℝ :=
  1 / (1 + Real.exp (-(k * (x - x0))))

/-- Modelled from the spec: the closed set of normalizing transforms used by
the configured component types: sigmoid squashing (`predictive_property`),
clamping into `[0,1]` (`qed_score`), the pass/fail indicator
(`custom_alerts`) and the match bonus (`matching_substructure`, scoring
`1` on match and `1/2` otherwise, as in the Step 0 log table). -/
inductive Transform where
  | sigmoid (k x0 : ℝ)
  | clamp
  | indicator
  | matchBonus

/-- Modelled from the spec: apply a transform to a raw component value. -/
noncomputable def applyTransform : Transform → ℝ → ℝ
  | .sigmoid k x0, x => sigmoidTransform k x0 x
  | .clamp, x => max 0 (min 1 x)
  | .indicator, x => if 0 < x then 1 else 0
  | .matchBonus, x => if 0 < x then 1 else 1 / 2

/-- Modelled from the spec: the normalized output of a scoring component.
An invalid/pathological candidate produces no raw value (`none`) and
reports the neutral zero value; a raw value is normalized by the
component's transform. -/
noncomputable def normScore (t : Transform) : Option ℝ → ℝ
  | none => 0
  | some x => applyTransform t x

theorem sigmoidTransform_bounds (k x0 x : ℝ) :
    0 ≤ sigmoidTransform k x0 x ∧ sigmoidTransform k x0 x ≤ 1 := by
  have hexp := Real.exp_pos (-(k * (x - x0)))
  have hpos : 0 < 1 + Real.exp (-(k * (x - x0))) := by linarith
  unfold sigmoidTransform
  constructor
  · positivity
  · rw [div_le_one hpos]
    linarith

/-- C7: every scoring component's normalized output lies in `[0,1]`, for
every transform configuration and every input — including the pathological
case of an invalid candidate with no raw value. -/
theorem component_output_bounds (t : Transform) (r : Option ℝ) :
    0 ≤ normScore t r ∧ normScore t r ≤ 1 := by
  match r with
  | none => exact ⟨by norm_num [normScore], by norm_num [normScore]⟩
  | some x =>
      match t with
      | .sigmoid k x0 => exact sigmoidTransform_bounds k x0 x
      | .clamp =>
          refine ⟨le_max_left 0 _, ?_⟩
          simp only [normScore, applyTransform, max_le_iff]
          exact ⟨by norm_num, min_le_left 1 x⟩
      | .indicator =>
          simp only [normScore, applyTransform]
          by_cases h : 0 < x <;> simp [h]
      | .matchBonus =>
          simp only [normScore, applyTransform]
          by_cases h : 0 < x <;> simp [h] <;> norm_num

/-! ### Scoring aggregation -/

/-- Modelled from the spec: the total configured weight of the scoring
components; a component is a `(weight, contribution)` pair. -/
def totalWeight (comps : List (ℝ × ℝ)) : ℝ :=
  (comps.map Prod.fst).sum

/-- Modelled from the spec: the `custom_product` aggregation mode — a
weighted geometric-style product where each component contribution is
raised to the exponent `weight / sum(weights)` (spec §4.2); the aggregator
is implemented in the external REINVENT program. -/
noncomputable def customProduct (comps : List (ℝ × ℝ)) : ℝ :=
  (comps.map (fun p => p.2 ^ (p.1 / totalWeight comps))).prod

/-- Modelled from the spec: the `custom_sum` aggregation mode — the
weighted arithmetic mean of the component contributions (spec §4.2). -/
noncomputable def customSum (comps : List (ℝ × ℝ)) : ℝ :=
  (comps.map (fun p => p.1 * p.2)).sum / totalWeight comps

theorem list_prod_le_one : ∀ (l : List ℝ), (∀ x ∈ l, 0 ≤ x ∧ x ≤ 1) → l.prod ≤ 1
  | [], _ => by simp
  | x :: rest, h => by
      rw [List.prod_cons]
      have hx := h x (by simp)
      have hr : ∀ y ∈ rest, 0 ≤ y ∧ y ≤ 1 := fun y hy => h y (by simp [hy])
      have h1 : rest.prod ≤ 1 := list_prod_le_one rest hr
      have h0 : 0 ≤ rest.prod := List.prod_nonneg (fun y hy => (hr y hy).1)
      calc x * rest.prod ≤ 1 * 1 := mul_le_mul hx.2 h1 h0 (by norm_num)
        _ = 1 := by norm_num

/-- Counterexample to C2 as stated: the spec allows a component weight to be
any non-negative scalar; with components `(weight, contribution) = (0, 0)`
and `(1, 1)` every contribution lies in `[0,1]` and one contribution equals
`0.0`, yet `custom_product` aggregates to `1`, not `0` — the zero
contribution is neutralized by its zero weight since `0 ^ (0/1) = 1`. -/
theorem customProduct_zero_counterexample :
    (∀ p ∈ [((0 : ℝ), (0 : ℝ)), ((1 : ℝ), (1 : ℝ))], 0 ≤ p.2 ∧ p.2 ≤ 1) ∧
    (∃ p ∈ [((0 : ℝ), (0 : ℝ)), ((1 : ℝ), (1 : ℝ))], p.2 = 0) ∧
    customProduct [((0 : ℝ), (0 : ℝ)), ((1 : ℝ), (1 : ℝ))] ≠ 0 := by
  refine ⟨by norm_num, ⟨(0, 0), by norm_num⟩, ?_⟩
  have ht : totalWeight [((0 : ℝ), (0 : ℝ)), ((1 : ℝ), (1 : ℝ))] = 1 := by
    simp [totalWeight]
  rw [customProduct, ht]
  norm_num [Real.rpow_zero, Real.one_rpow]

/-- C2, amended as the counterexample forces: for a nonempty component list
with positive weights and contributions in `[0,1]`, both `custom_product`
and `custom_sum` produce a total score in `[0,1]`; if every contribution is
`1.0`, both totals equal `1.0`; and if any contribution is `0.0`,
`custom_product` totals `0.0`. -/
theorem aggregator_bounds (comps : List (ℝ × ℝ))
    (hne : comps ≠ [])
    (hw : ∀ p ∈ comps, 0 < p.1)
    (hc : ∀ p ∈ comps, 0 ≤ p.2 ∧ p.2 ≤ 1) :
    (0 ≤ customProduct comps ∧ customProduct comps ≤ 1) ∧
    (0 ≤ customSum comps ∧ customSum comps ≤ 1) ∧
    ((∀ p ∈ comps, p.2 = 1) → customProduct comps = 1 ∧ customSum comps = 1) ∧
    ((∃ p ∈ comps, p.2 = 0) → customProduct comps = 0) := by
  have hW : 0 < totalWeight comps := by
    rw [totalWeight]
    apply List.sum_pos
    · intro w hwmem
      obtain ⟨p, hp, hpe⟩ := List.mem_map.mp hwmem
      exact hpe ▸ hw p hp
    · simpa using hne
  refine ⟨⟨?_, ?_⟩, ⟨?_, ?_⟩, ?_, ?_⟩
  · apply List.prod_nonneg
    intro x hx
    obtain ⟨p, hp, rfl⟩ := List.mem_map.mp hx
    exact Real.rpow_nonneg (hc p hp).1 _
  · apply list_prod_le_one
    intro x hx
    obtain ⟨p, hp, rfl⟩ := List.mem_map.mp hx
    exact ⟨Real.rpow_nonneg (hc p hp).1 _,
      Real.rpow_le_one (hc p hp).1 (hc p hp).2
        (div_nonneg (le_of_lt (hw p hp)) (le_of_lt hW))⟩
  · apply div_nonneg _ (le_of_lt hW)
    apply List.sum_nonneg
    intro x hx
    obtain ⟨p, hp, rfl⟩ := List.mem_map.mp hx
    exact mul_nonneg (le_of_lt (hw p hp)) (hc p hp).1
  · rw [customSum, div_le_one hW, totalWeight]
    apply List.sum_le_sum
    intro p hp
    calc p.1 * p.2 ≤ p.1 * 1 :=
          mul_le_mul_of_nonneg_left (hc p hp).2 (le_of_lt (hw p hp))
      _ = p.1 := mul_one _
  · intro hall
    constructor
    · rw [customProduct]
      apply List.prod_eq_one
      intro x hx
      obtain ⟨p, hp, rfl⟩ := List.mem_map.mp hx
      rw [hall p hp, Real.one_rpow]
    · rw [customSum]
      have hmaps : comps.map (fun p => p.1 * p.2) = comps.map Prod.fst := by
        apply List.map_congr_left
        intro p hp
        rw [hall p hp, mul_one]
      rw [hmaps]
      exact div_self (ne_of_gt hW)
  · rintro ⟨p, hp, hp0⟩
    rw [customProduct]
    apply List.prod_eq_zero
    apply List.mem_map.mpr
    refine ⟨p, hp, ?_⟩
    rw [hp0]
    exact Real.zero_rpow (ne_of_gt (div_pos (hw p hp) hW))

/-- Witness for C2 amended: two components of weights 1 and 3 with
contribution 1 each give a product score of exactly 1. -/
theorem aggregator_bounds_witness :
    0 ≤ customProduct [((1 : ℝ), (1 : ℝ)), ((3 : ℝ), (1 : ℝ))] ∧
    customProduct [((1 : ℝ), (1 : ℝ)), ((3 : ℝ), (1 : ℝ))] = 1 := by
  have h := aggregator_bounds [((1 : ℝ), (1 : ℝ)), ((3 : ℝ), (1 : ℝ))]
    (List.cons_ne_nil _ _)
    (by intro p hp; fin_cases hp <;> norm_num)
    (by intro p hp; fin_cases hp <;> norm_num)
  exact ⟨h.1.1, (h.2.2.1 (by intro p hp; fin_cases hp <;> norm_num)).1⟩

/-! ### Batch processing and failure semantics -/

/-- Modelled from the spec: a scoring component as the training loop sees
it — a raw evaluation that may fail on a given candidate, the transform
normalizing raw values into `[0,1]`, the component's declared neutral value
used when evaluation fails, and its weight. -/
structure Component where
  rawEval : Candidate → Option ℝ
  transform : Transform
  neutral : ℝ
  weight : ℝ

/-- Modelled from the spec: the contribution of one component for one
candidate — a failed component evaluation degrades only this contribution,
to the component's declared neutral value (spec §4.2 neutral-value policy,
§4.5 failure semantics). -/
noncomputable def contribution (comp : Component) (c : Candidate) : ℝ :=
  match comp.rawEval c with
  | some x => applyTransform comp.transform x
  | none => comp.neutral

/-- Modelled from the spec: the score of one batch slot.  `none` models an
unparseable/invalid generated sequence: it is scored zero while still
occupying its slot; a parsed candidate is scored by aggregating its
component contributions in the configured mode. -/
noncomputable def scoreCandidate (comps : List Component) (productMode : Bool) :
    Option Candidate → ℝ
  | none => 0
  | some c =>
      if productMode then customProduct (comps.map (fun k => (k.weight, contribution k c)))
      else customSum (comps.map (fun k => (k.weight, contribution k c)))

/-- Modelled from the spec: the error taxonomy — only configuration errors
and resource (I/O) failures are fatal (spec §7). -/
inductive RunError where
  | configError (msg : String)
  | resourceError (msg : String)

/-- Modelled from the spec: a run's startup checks, abstracting the two
failure classes that terminate a run. -/
structure RunChecks where
  configValid : Bool
  resourcesOk : Bool

/-- Modelled from the spec: process one batch — fatal only on configuration
or resource errors, reported before scoring; otherwise every slot, valid or
not, yields a score. -/
noncomputable def processBatch (chk : RunChecks) (comps : List Component)
    (productMode : Bool) (batch : List (Option Candidate)) :
    Except RunError (List ℝ) :=
  if !chk.configValid then .error (.configError "invalid configuration")
  else if !chk.resourcesOk then
    .error (.resourceError "missing model or unwritable output path")
  else .ok (batch.map (scoreCandidate comps productMode))

/-- C8: with a valid configuration and available resources, no single
invalid candidate and no per-candidate component failure aborts the run or
the batch: the batch yields a score for every slot, an invalid candidate is
scored zero while still occupying its slot, and a failed component
evaluation degrades only that component's contribution, to its declared
neutral value. -/
theorem batch_failures_not_fatal (chk : RunChecks) (comps : List Component)
    (productMode : Bool) (batch : List (Option Candidate))
    (hcfg : chk.configValid = true) (hres : chk.resourcesOk = true) :
    (∃ scores, processBatch chk comps productMode batch = .ok scores ∧
       scores.length = batch.length ∧
       ∀ i, i < batch.length → batch[i]? = some none → scores[i]? = some 0) ∧
    (∀ comp c, comp.rawEval c = none → contribution comp c = comp.neutral) := by
  refine ⟨⟨batch.map (scoreCandidate comps productMode), ?_, by simp, ?_⟩, ?_⟩
  · rw [processBatch, hcfg, hres]
    rfl
  · intro i hi hslot
    rw [List.getElem?_map, hslot]
    rfl
  · intro comp c hfail
    simp [contribution, hfail]

/-- Witness for C8: a valid run over a batch holding one invalid sequence
returns one score, namely zero, for that slot. -/
theorem batch_failures_not_fatal_witness :
    ∃ scores, processBatch ⟨true, true⟩ [] true [Option.none] = .ok scores ∧
      scores.length = 1 ∧
      ∀ i, i < 1 → ([Option.none] : List (Option Candidate))[i]? = some none →
        scores[i]? = some 0 := by
  have h := batch_failures_not_fatal ⟨true, true⟩ [] true [Option.none] rfl rfl
  obtain ⟨⟨scores, h1, h2, h3⟩, _⟩ := h
  exact ⟨scores, h1, by simpa using h2, by simpa using h3⟩

/-! ### Configuration serialization (`json.dump` with `sort_keys=True`) -/

mutual

/-- A JSON value as the notebooks build it: scalars, arrays, and objects
whose entry order records dictionary insertion order.  Numeric and string
scalars are modelled as their encoded tokens. -/
inductive Json where
  | null : Json
  | bool : Bool → Json
  | num : String → Json
  | str : String → Json
  | arr : JsonList → Json
  | obj : JsonObj → Json

/-- A list of JSON values. -/
inductive JsonList where
  | nil : JsonList
  | cons : Json → JsonList → JsonList

/-- Object entries in insertion order. -/
inductive JsonObj where
  | nil : JsonObj
  | cons : String → Json → JsonObj → JsonObj

end

/-- Object entries as an association list. -/
def JsonObj.toList : JsonObj → List (String × Json)
  | .nil => []
  | .cons k v t => (k, v) :: JsonObj.toList t

/-- Number of entries of an object. -/
def olen : JsonObj → Nat
  | .nil => 0
  | .cons _ _ t => olen t + 1

/-- Whether an object binds a key. -/
def hasKey (k : String) : JsonObj → Bool
  | .nil => false
  | .cons k' _ t => if k = k' then true else hasKey k t

/-- The first value an object binds to a key. -/
def lookupKey (k : String) : JsonObj → Option Json
  | .nil => none
  | .cons k' v t => if k = k' then some v else lookupKey k t

/-- All keys of an object distinct, as is forced for a Python dict. -/
def keysNodup : JsonObj → Bool
  | .nil => true
  | .cons k _ t => !hasKey k t && keysNodup t

/-- Insert an entry into a key-sorted object, keeping keys sorted. -/
def insertEntry (k : String) (v : Json) : JsonObj → JsonObj
  | .nil => .cons k v .nil
  | .cons k' v' t =>
      if k ≤ k' then .cons k v (.cons k' v' t)
      else .cons k' v' (insertEntry k v t)

/-- Sort an object's entries by key (insertion sort) — the key order
`json.dump(..., sort_keys=True)` emits. -/
def sortObj : JsonObj → JsonObj
  | .nil => .nil
  | .cons k v t => insertEntry k v (sortObj t)

mutual

/-- Recursively sort every object's entries by key: the canonical form a
configuration value is rendered from under `sort_keys=True`. -/
def canonJ : Json → Json
  | .null => .null
  | .bool b => .bool b
  | .num s => .num s
  | .str s => .str s
  | .arr l => .arr (canonL l)
  | .obj o => .obj (sortObj (mapCanon o))

/-- Canonicalize every element of a JSON list. -/
def canonL : JsonList → JsonList
  | .nil => .nil
  | .cons h t => .cons (canonJ h) (canonL t)

/-- Canonicalize every value of an object, keeping entry order. -/
def mapCanon : JsonObj → JsonObj
  | .nil => .nil
  | .cons k v t => .cons k (canonJ v) (mapCanon t)

end

/-- Four-space indentation at nesting depth `d`, as `indent=4` produces. -/
def pad (d : Nat) : String := String.mk (List.replicate (4 * d) ' ')

mutual

/-- Render a JSON value at nesting depth `d` in the layout of Python's
`json.dump(..., indent=4)`. -/
def renderJ : Nat → Json → String
  | _, .null => "null"
  | _, .bool b => if b then "true" else "false"
  | _, .num s => s
  | _, .str s => "\"" ++ s ++ "\""
  | _, .arr .nil => "[]"
  | d, .arr l => "[\n" ++ renderL (d + 1) l ++ "\n" ++ pad d ++ "]"
  | _, .obj .nil => "\x7b\x7d"
  | d, .obj o => "\x7b\n" ++ renderO (d + 1) o ++ "\n" ++ pad d ++ "\x7d"

/-- Render array elements, comma-and-newline separated. -/
def renderL : Nat → JsonList → String
  | _, .nil => ""
  | d, .cons h .nil => pad d ++ renderJ d h
  | d, .cons h t => pad d ++ renderJ d h ++ ",\n" ++ renderL d t

/-- Render object entries, comma-and-newline separated. -/
def renderO : Nat → JsonObj → String
  | _, .nil => ""
  | d, .cons k v .nil => pad d ++ "\"" ++ k ++ "\": " ++ renderJ d v
  | d, .cons k v t => pad d ++ "\"" ++ k ++ "\": " ++ renderJ d v ++ ",\n" ++ renderO d t

end

/-- Models the notebook line `json.dump(configuration, f, indent=4,
sort_keys=True)`: the file contents are the rendering of the
configuration value with every object's keys in sorted order, independent
of insertion order. -/
def serializeConfig (j : Json) : String := renderJ 0 (canonJ j)

mutual

/-- Python value equality on configuration values: scalars by value, lists
pointwise, dicts as finite maps (equal size, and every entry of the first
bound in the second to an equal value) — the sense in which two runs
"build the same mapping" irrespective of key insertion order. -/
def eqJ : Json → Json → Bool
  | .null, .null => true
  | .bool b1, .bool b2 => b1 == b2
  | .num s1, .num s2 => s1 == s2
  | .str s1, .str s2 => s1 == s2
  | .arr l1, .arr l2 => eqL l1 l2
  | .obj o1, .obj o2 => olen o1 == olen o2 && subMap o1 o2
  | _, _ => false

/-- Pointwise equality of JSON lists. -/
def eqL : JsonList → JsonList → Bool
  | .nil, .nil => true
  | .cons h1 t1, .cons h2 t2 => eqJ h1 h2 && eqL t1 t2
  | _, _ => false

/-- Every entry of the first object is bound in the second to an equal
value. -/
def subMap : JsonObj → JsonObj → Bool
  | .nil, _ => true
  | .cons k v t, o2 =>
      (match lookupKey k o2 with
       | some v2 => eqJ v v2
       | none => false) && subMap t o2

end

mutual

/-- Well-formed configuration value: every object in the tree has pairwise
distinct keys, as is forced for values built as Python dictionaries. -/
def wfJ : Json → Bool
  | .null => true
  | .bool _ => true
  | .num _ => true
  | .str _ => true
  | .arr l => wfL l
  | .obj o => keysNodup o && wfO o

/-- Well-formedness of every element of a JSON list. -/
def wfL : JsonList → Bool
  | .nil => true
  | .cons h t => wfJ h && wfL t

/-- Well-formedness of every value of an object. -/
def wfO : JsonObj → Bool
  | .nil => true
  | .cons _ v t => wfJ v && wfO t

end

theorem toList_mapCanon : ∀ (o : JsonObj),
    (mapCanon o).toList = o.toList.map (fun p => (p.1, canonJ p.2))
  | .nil => rfl
  | .cons k v t => by
      simp [mapCanon, JsonObj.toList, toList_mapCanon t]

theorem toList_insertEntry_perm (k : String) (v : Json) : ∀ (o : JsonObj),
    List.Perm (insertEntry k v o).toList ((k, v) :: o.toList)
  | .nil => by simp [insertEntry, JsonObj.toList]
  | .cons k' v' t => by
      rw [insertEntry]
      by_cases h : k ≤ k'
      · rw [if_pos h]
        simp [JsonObj.toList]
      · rw [if_neg h]
        simp only [JsonObj.toList]
        exact ((toList_insertEntry_perm k v t).cons (k', v')).trans
          (List.Perm.swap (k, v) (k', v') t.toList)

theorem toList_sortObj_perm : ∀ (o : JsonObj),
    List.Perm (sortObj o).toList o.toList
  | .nil => by simp [sortObj]
  | .cons k v t => by
      rw [sortObj]
      exact (toList_insertEntry_perm k v (sortObj t)).trans
        ((toList_sortObj_perm t).cons (k, v))

/-- Key-sortedness of an association list. -/
def KeySorted (l : List (String × Json)) : Prop :=
  l.Pairwise (fun p q => p.1 ≤ q.1)

theorem insertEntry_sorted (k : String) (v : Json) : ∀ (o : JsonObj),
    KeySorted o.toList → KeySorted (insertEntry k v o).toList
  | .nil, _ => by simp [insertEntry, JsonObj.toList, KeySorted]
  | .cons k' v' t, hs => by
      rw [insertEntry]
      rw [KeySorted, JsonObj.toList, List.pairwise_cons] at hs
      obtain ⟨hs1, hs2⟩ := hs
      by_cases h : k ≤ k'
      · rw [if_pos h]
        rw [KeySorted, JsonObj.toList, List.pairwise_cons]
        refine ⟨?_, ?_⟩
        · intro q hq
          rw [JsonObj.toList, List.mem_cons] at hq
          rcases hq with rfl | hq
          · exact h
          · exact le_trans h (hs1 q hq)
        · rw [JsonObj.toList, List.pairwise_cons]
          exact ⟨hs1, hs2⟩
      · rw [if_neg h]
        have hk : k' ≤ k := le_of_not_le h
        rw [KeySorted, JsonObj.toList, List.pairwise_cons]
        refine ⟨?_, insertEntry_sorted k v t hs2⟩
        intro q hq
        rw [(toList_insertEntry_perm k v t).mem_iff, List.mem_cons] at hq
        rcases hq with rfl | hq
        · exact hk
        · exact hs1 q hq

theorem sortObj_sorted : ∀ (o : JsonObj), KeySorted (sortObj o).toList
  | .nil => by simp [sortObj, JsonObj.toList, KeySorted]
  | .cons k v t => insertEntry_sorted k v (sortObj t) (sortObj_sorted t)

theorem toList_inj : ∀ (o1 o2 : JsonObj), o1.toList = o2.toList → o1 = o2
  | .nil, .nil, _ => rfl
  | .nil, .cons _ _ _, h => by simp [JsonObj.toList] at h
  | .cons _ _ _, .nil, h => by simp [JsonObj.toList] at h
  | .cons k1 v1 t1, .cons k2 v2 t2, h => by
      simp only [JsonObj.toList, List.cons.injEq, Prod.mk.injEq] at h
      obtain ⟨⟨h1, h2⟩, h3⟩ := h
      rw [h1, h2, toList_inj t1 t2 h3]

/-- Strict key order on association entries. -/
def keyLt (p q : String × Json) : Prop := p.1 < q.1

instance : IsAntisymm (String × Json) keyLt :=
  ⟨fun _ _ h1 h2 => absurd (lt_trans h1 h2) (lt_irrefl _)⟩

theorem keySorted_nodup_pairwise_lt {l : List (String × Json)}
    (hs : KeySorted l) (hn : (l.map Prod.fst).Nodup) : l.Pairwise keyLt := by
  have hne : l.Pairwise (fun p q : String × Json => p.1 ≠ q.1) :=
    List.pairwise_map.mp hn
  exact (hs.and hne).imp (fun h => lt_of_le_of_ne h.1 h.2)

theorem sortObj_eq_of_perm (x y : JsonObj)
    (hperm : List.Perm x.toList y.toList)
    (hn : (x.toList.map Prod.fst).Nodup) :
    sortObj x = sortObj y := by
  apply toList_inj
  have hpx := toList_sortObj_perm x
  have hpy := toList_sortObj_perm y
  have hp : List.Perm (sortObj x).toList (sortObj y).toList :=
    hpx.trans (hperm.trans hpy.symm)
  have hnx : ((sortObj x).toList.map Prod.fst).Nodup :=
    ((hpx.map Prod.fst).nodup_iff).mpr hn
  have hny : ((sortObj y).toList.map Prod.fst).Nodup :=
    ((hp.map Prod.fst).nodup_iff).mp hnx
  exact List.eq_of_perm_of_sorted hp
    (keySorted_nodup_pairwise_lt (sortObj_sorted x) hnx)
    (keySorted_nodup_pairwise_lt (sortObj_sorted y) hny)

theorem hasKey_iff_mem (k : String) : ∀ (o : JsonObj),
    hasKey k o = true ↔ k ∈ o.toList.map Prod.fst
  | .nil => by simp [hasKey, JsonObj.toList]
  | .cons k' v t => by
      rw [hasKey, JsonObj.toList]
      by_cases h : k = k' <;> simp [h, hasKey_iff_mem k t]

theorem keysNodup_nodup : ∀ (o : JsonObj), keysNodup o = true →
    (o.toList.map Prod.fst).Nodup
  | .nil, _ => by simp [JsonObj.toList]
  | .cons k v t, h => by
      rw [keysNodup, Bool.and_eq_true] at h
      obtain ⟨h1, h2⟩ := h
      rw [JsonObj.toList, List.map_cons, List.nodup_cons]
      refine ⟨fun hmem => ?_, keysNodup_nodup t h2⟩
      have := (hasKey_iff_mem k t).mpr hmem
      rw [this] at h1
      exact Bool.noConfusion h1

theorem lookupKey_mem (k : String) (v : Json) : ∀ (o : JsonObj),
    lookupKey k o = some v → (k, v) ∈ o.toList
  | .nil, h => by simp [lookupKey] at h
  | .cons k' v' t, h => by
      rw [lookupKey] at h
      by_cases he : k = k'
      · rw [if_pos he] at h
        cases h
        rw [JsonObj.toList, he]
        exact List.mem_cons_self _ _
      · rw [if_neg he] at h
        rw [JsonObj.toList]
        exact List.mem_cons_of_mem _ (lookupKey_mem k v t h)

theorem lookupKey_wf (k : String) (v : Json) : ∀ (o : JsonObj),
    wfO o = true → lookupKey k o = some v → wfJ v = true
  | .nil, _, h => by simp [lookupKey] at h
  | .cons k' v' t, hw, h => by
      rw [lookupKey] at h
      rw [wfO, Bool.and_eq_true] at hw
      by_cases he : k = k'
      · rw [if_pos he] at h
        cases h
        exact hw.1
      · rw [if_neg he] at h
        exact lookupKey_wf k v t hw.2 h

theorem olen_toList : ∀ (o : JsonObj), olen o = o.toList.length
  | .nil => rfl
  | .cons k v t => by simp [olen, JsonObj.toList, olen_toList t]

theorem sizeOfJ_pos (a : Json) : 0 < sizeOf a := by cases a <;> simp <;> omega

theorem sizeOfL_pos (l : JsonList) : 0 < sizeOf l := by cases l <;> simp <;> omega

theorem sizeOfO_pos (o : JsonObj) : 0 < sizeOf o := by cases o <;> simp <;> omega

theorem canon_eq_aux : ∀ (n : Nat),
    (∀ (a b : Json), sizeOf a ≤ n → eqJ a b = true → wfJ a = true → wfJ b = true →
       canonJ a = canonJ b) ∧
    (∀ (l1 l2 : JsonList), sizeOf l1 ≤ n → eqL l1 l2 = true → wfL l1 = true →
       wfL l2 = true → canonL l1 = canonL l2) ∧
    (∀ (o1 o2 : JsonObj), sizeOf o1 ≤ n → subMap o1 o2 = true → wfO o1 = true →
       wfO o2 = true → ∀ p ∈ (mapCanon o1).toList, p ∈ (mapCanon o2).toList) := by
  intro n
  induction n with
  | zero =>
      refine ⟨fun a b ha _ _ _ => absurd ha ?_, fun l1 l2 hl _ _ _ => absurd hl ?_,
              fun o1 o2 ho _ _ _ p hp => absurd ho ?_⟩
      · have := sizeOfJ_pos a; omega
      · have := sizeOfL_pos l1; omega
      · have := sizeOfO_pos o1; omega
  | succ n ih =>
      obtain ⟨ihJ, ihL, ihO⟩ := ih
      refine ⟨?_, ?_, ?_⟩
      · intro a b ha heq hw1 hw2
        cases a <;> cases b <;> simp [eqJ] at heq
        · rfl
        · rw [heq]
        · rw [heq]
        · rw [heq]
        · rename_i l1 l2
          simp only [canonJ]
          simp only [wfJ] at hw1 hw2
          rw [ihL l1 l2 (by simp at ha; omega) heq hw1 hw2]
        · rename_i o1 o2
          obtain ⟨hlen, hsub⟩ := heq
          simp only [wfJ, Bool.and_eq_true] at hw1 hw2
          obtain ⟨hn1, hwo1⟩ := hw1
          obtain ⟨hn2, hwo2⟩ := hw2
          have hsize : sizeOf o1 ≤ n := by simp at ha; omega
          have hsubset := ihO o1 o2 hsize hsub hwo1 hwo2
          have hm1keys : (mapCanon o1).toList.map Prod.fst = o1.toList.map Prod.fst := by
            rw [toList_mapCanon, List.map_map]
            rfl
          have hkeysnodup : ((mapCanon o1).toList.map Prod.fst).Nodup := by
            rw [hm1keys]
            exact keysNodup_nodup o1 hn1
          have hm1nodup : (mapCanon o1).toList.Nodup :=
            List.Nodup.of_map Prod.fst hkeysnodup
          have hlen12 : (mapCanon o2).toList.length ≤ (mapCanon o1).toList.length := by
            rw [toList_mapCanon, toList_mapCanon, List.length_map, List.length_map,
              ← olen_toList, ← olen_toList, hlen]
          have hperm := (hm1nodup.subperm
            (fun p hp => hsubset p hp)).perm_of_length_le hlen12
          simp only [canonJ]
          rw [sortObj_eq_of_perm (mapCanon o1) (mapCanon o2) hperm hkeysnodup]
      · intro l1 l2 hl heq hw1 hw2
        cases l1 <;> cases l2 <;> simp [eqL] at heq
        · rfl
        · rename_i h1 t1 h2 t2
          obtain ⟨hh, ht⟩ := heq
          simp only [wfL, Bool.and_eq_true] at hw1 hw2
          simp only [canonL]
          rw [ihJ h1 h2 (by simp at hl; omega) hh hw1.1 hw2.1,
            ihL t1 t2 (by simp at hl; omega) ht hw1.2 hw2.2]
      · intro o1 o2 ho hsub hw1 hw2 p hp
        cases o1 with
        | nil => simp [mapCanon, JsonObj.toList] at hp
        | cons k v t =>
            rw [subMap, Bool.and_eq_true] at hsub
            obtain ⟨hhead, htail⟩ := hsub
            rw [wfO, Bool.and_eq_true] at hw1
            obtain ⟨hwv, hwt⟩ := hw1
            rw [mapCanon, JsonObj.toList, List.mem_cons] at hp
            rcases hp with rfl | hp
            · cases hlk : lookupKey k o2 with
              | some v2 =>
                  simp only [hlk] at hhead
                  have hv2wf := lookupKey_wf k v2 o2 hw2 hlk
                  have hveq : canonJ v = canonJ v2 :=
                    ihJ v v2 (by simp at ho; omega) hhead hwv hv2wf
                  have hmem : (k, v2) ∈ o2.toList := lookupKey_mem k v2 o2 hlk
                  rw [toList_mapCanon, hveq]
                  exact List.mem_map.mpr ⟨(k, v2), hmem, rfl⟩
              | none =>
                  simp only [hlk] at hhead
                  exact Bool.noConfusion hhead
            · exact ihO t o2 (by simp at ho; omega) htail hwt hw2 p hp

/-- C10: configuration serialization is deterministic — the serialized file
is a function of the configuration's key-value contents alone.  Two runs
that build the same mapping (possibly inserting keys in different orders,
at any nesting depth) produce byte-identical output, because serialization
sorts every object's keys (`sort_keys=True`) before rendering with
`indent=4`. -/
theorem config_serialization_deterministic (a b : Json)
    (heq : eqJ a b = true) (hwa : wfJ a = true) (hwb : wfJ b = true) :
    serializeConfig a = serializeConfig b := by
  rw [serializeConfig, serializeConfig,
    (canon_eq_aux (sizeOf a)).1 a b (le_refl _) heq hwa hwb]

/-- Witness for C10: the same two-entry configuration mapping built in the
two insertion orders serializes to byte-identical text. -/
theorem config_serialization_deterministic_witness :
    serializeConfig (.obj (.cons "version" (.num "2")
        (.cons "run_type" (.str "reinforcement_learning") .nil))) =
      serializeConfig (.obj (.cons "run_type" (.str "reinforcement_learning")
        (.cons "version" (.num "2") .nil))) :=
  config_serialization_deterministic _ _ (by decide) (by decide) (by decide)

end ReinventSpec
